import Mathlib

/-!
Verification of the `cconst` build-time constant generator (src/src/lib.rs).

The development shallowly embeds the crate's operations:

* a value's in-memory representation is a `List Nat` of its bytes in address
  order (each byte below 256, as produced by reading `*const u8` offsets);
* `marshall_value` mirrors the Rust function of the same name, building the
  byte-slice literal by folding over the bytes exactly as the `for` loop
  pushes `format!("0x\x7b:02X\x7d, ", byte)` groups onto the accumulator;
* `create_constant_func` mirrors the `format!` template producing the
  accessor function source;
* the registry `CopyConsts(HashMap<String, String>)` is embedded as an
  association list with HashMap insert/lookup semantics (`hm_insert`,
  `hm_lookup`), iterated in list order by `write_code` — the HashMap's
  unspecified iteration order is captured by quantifying over permutations;
* `write_code` is embedded as a function from a file-system environment
  (`FsEnv`: the `OUT_DIR` variable, per-path create/write success, stdout
  success) and the entry list to the trace of externally visible events and
  an outcome (`ok`, an error, or a panic from the `unwrap` on stdout).
-/

namespace Cconst

/- ### Definitions -/

/-- Concatenation of a list of strings, in order. -/
def concatList : List String → String
  | [] => ""
  | s :: rest => s ++ concatList rest

/-- One uppercase hexadecimal digit, as produced by Rust's `X` formatting of a
nibble (`0`-`9` then `A`-`F`). -/
def hexDigit (n : Nat) : Char :=
  if n < 10 then Char.ofNat (48 + n) else Char.ofNat (55 + n)

/-- The two-digit rendering `format!("\x7b:02X\x7d", b)` of a byte `b < 256`:
high nibble then low nibble, zero padded to width two. -/
def hexByte (b : Nat) : String :=
  String.mk [hexDigit (b / 16), hexDigit (b % 16)]

/-- The text pushed for one byte in `marshall_value`'s loop:
`format!("0x\x7b:02X\x7d, ", byte)`. -/
def byteGroup (b : Nat) : String :=
  "0x" ++ hexByte b ++ ", "

/-- Embedding of `marshall_value<T: Copy>(val: &T) -> String` (src/src/lib.rs
lines 78-91): starting from `"&["`, the loop walks the value's bytes in
address order (here: the input list order) pushing one `byteGroup` per byte,
then appends `"]"`. -/
def marshall_value (bytes : List Nat) : String :=
  (bytes.foldl (fun acc b => acc ++ byteGroup b) "&[") ++ "]"

/-- A character is an uppercase hexadecimal digit. -/
def isUpperHexDigit (c : Char) : Prop :=
  c ∈ "0123456789ABCDEF".data

instance (c : Char) : Decidable (isUpperHexDigit c) := by
  unfold isUpperHexDigit; infer_instance

/-- Embedding of `create_constant_func<T: Copy>(fname, typename, val)`
(src/src/lib.rs lines 93-104): the `format!` template of the source, with the
Rust `let sval = marshall_value(val)` binding inlined. Braces and the
apostrophe of the target text are written with hexadecimal escapes. -/
def create_constant_func (fname typename : String) (bytes : List Nat) : String :=
  "#[inline]\nfn " ++ fname ++ "() -> &\x27static " ++ typename
    ++ " \x7b\n    const BUF: &[u8] = " ++ marshall_value bytes
    ++ ";\n    unsafe \x7b &*(BUF.as_ptr() as *const " ++ typename ++ ") \x7d\n\x7d\n"

/-- HashMap insert semantics on an association list: replace the value at an
existing key in place, otherwise append the new binding. Embeds
`HashMap::insert` on the `CopyConsts` map, with the list order standing for
one of the HashMap's unspecified iteration orders. -/
def hm_insert (k v : String) : List (String × String) → List (String × String)
  | [] => [(k, v)]
  | (k2, v2) :: rest => if k2 = k then (k, v) :: rest else (k2, v2) :: hm_insert k v rest

/-- HashMap lookup on the association-list embedding. -/
def hm_lookup (k : String) : List (String × String) → Option String
  | [] => none
  | (k2, v2) :: rest => if k2 = k then some v2 else hm_lookup k rest

/-- Embedding of `CopyConsts::add_const` (src/src/lib.rs lines 128-131):
stores the generated accessor text for `fname` under the key `fname`,
replacing any previous entry. -/
def add_const (reg : List (String × String)) (fname typename : String)
    (bytes : List Nat) : List (String × String) :=
  hm_insert fname (create_constant_func fname typename bytes) reg

/-- The error type of Rust's `std::env::var`. -/
inductive VarError
  | notPresent
  | notUnicode
deriving DecidableEq

/-- Reading the `OUT_DIR` process variable: absent means `Err(NotPresent)`. -/
def env_var (v : Option String) : Except VarError String :=
  match v with
  | some s => Except.ok s
  | none => Except.error VarError.notPresent

/-- Embedding of `build_output_path(fname)` (src/src/lib.rs lines 110-112):
`Ok(env::var("OUT_DIR")? + "/cconst-" + fname + ".rs")`. -/
def build_output_path (outDir : Option String) (fname : String) :
    Except VarError String :=
  match env_var outDir with
  | Except.error e => Except.error e
  | Except.ok d => Except.ok (d ++ "/cconst-" ++ fname ++ ".rs")

/-- Embedding of the path computed by the `cconst!` macro (src/src/lib.rs
lines 57-60): `concat!(env!("OUT_DIR"), "/cconst-", stringify!(fname), ".rs")`. -/
def cconst_macro_path (outDir fname : String) : String :=
  outDir ++ "/cconst-" ++ fname ++ ".rs"

/-- One escaped character of Rust's `Debug` formatting of a string. -/
def debugEscapeChar (c : Char) : String :=
  if c = Char.ofNat 34 then "\\\"" else
  if c = Char.ofNat 92 then "\\\\" else
  if c = Char.ofNat 10 then "\\n" else
  if c = Char.ofNat 13 then "\\r" else
  if c = Char.ofNat 9 then "\\t" else
  String.mk [c]

/-- Rust's `\x7b:?\x7d` formatting of a string: quoted and escaped. -/
def rustDebug (s : String) : String :=
  "\"" ++ concatList (s.data.map debugEscapeChar) ++ "\""

/-- The error value a failing `write_code` run surfaces. `missingOutDir`
models `io::Error::new(io::ErrorKind::Other, "missing OUT_PATH")`, the
Configuration error of the spec; the other two model the `io::Error` of a
failing `File::create` respectively `write_all`. -/
inductive WriteError
  | missingOutDir
  | createDenied (path : String)
  | writeDenied (path : String)
deriving DecidableEq

/-- How a `write_code` call ends: `Ok(())`, `Err(e)`, or a panic from the
`unwrap` on the stdout write. -/
inductive Outcome
  | ok
  | err (e : WriteError)
  | panicked
deriving DecidableEq

/-- Externally visible events of a `write_code` run, in order: a diagnostic
written to stdout, a file created (truncated to empty), file contents
written. -/
inductive Event
  | stdoutOut (s : String)
  | created (path : String)
  | wrote (path : String) (content : String)
deriving DecidableEq

/-- The environment a `write_code` run interacts with: the `OUT_DIR`
variable, whether `File::create` and `write_all` succeed at a given path, and
whether writing to stdout succeeds. -/
structure FsEnv where
  outDir : Option String
  createOk : String → Bool
  writeOk : String → Bool
  stdoutOk : Bool

/-- Embedding of `CopyConsts::write_code` (src/src/lib.rs lines 134-146):
iterate the registry entries (in the association list's order); per entry
resolve the output path (mapping a `VarError` to the missing-`OUT_DIR` error
and returning early), print the diagnostic `OUTPUT PATH \x7b:?\x7d` to stdout
(panicking via `unwrap` if that write fails), create the file and write the
generated text, returning the first error. Produces the trace of events
alongside the outcome. -/
def write_code (env : FsEnv) : List (String × String) → List Event × Outcome
  | [] => ([], Outcome.ok)
  | (fname, buf) :: rest =>
    match build_output_path env.outDir fname with
    | Except.error _ => ([], Outcome.err WriteError.missingOutDir)
    | Except.ok path =>
      if env.stdoutOk then
        let ev := Event.stdoutOut ("OUTPUT PATH " ++ rustDebug path)
        if env.createOk path then
          if env.writeOk path then
            let r := write_code env rest
            (ev :: Event.created path :: Event.wrote path buf :: r.1, r.2)
          else
            ([ev, Event.created path], Outcome.err (WriteError.writeDenied path))
        else
          ([ev], Outcome.err (WriteError.createDenied path))
      else
        ([], Outcome.panicked)

/-- Replaying one event against a file-system state (path to contents). -/
def applyEvent (fs : String → Option String) : Event → (String → Option String)
  | Event.stdoutOut _ => fs
  | Event.created p => fun q => if q = p then some "" else fs q
  | Event.wrote p c => fun q => if q = p then some c else fs q

/-- Replaying a trace of events left to right. -/
def applyEvents (fs : String → Option String) (evs : List Event) :
    String → Option String :=
  evs.foldl applyEvent fs

/-- The file system before a run: no generated files. -/
def emptyFs : String → Option String := fun _ => none

/-- The three events a successfully processed entry contributes. -/
def entryEvents (d : String) (e : String × String) : List Event :=
  [Event.stdoutOut ("OUTPUT PATH " ++ rustDebug (cconst_macro_path d e.1)),
   Event.created (cconst_macro_path d e.1),
   Event.wrote (cconst_macro_path d e.1) e.2]

/-- The file system lets an entry's creation and write both succeed. -/
def entryOk (env : FsEnv) (d : String) (e : String × String) : Prop :=
  env.createOk (cconst_macro_path d e.1) = true
  ∧ env.writeOk (cconst_macro_path d e.1) = true

/-- An environment with `OUT_DIR` unset and everything else permitted. -/
def envNoOut : FsEnv :=
  ⟨none, fun _ => true, fun _ => true, true⟩

/-- An environment where every file-system interaction succeeds. -/
def envAll : FsEnv :=
  ⟨some "/out", fun _ => true, fun _ => true, true⟩

/-- An environment where creating the file of the entry named `g` fails. -/
def envDenyG : FsEnv :=
  ⟨some "/out", fun p => !(p == "/out/cconst-g.rs"), fun _ => true, true⟩

/- ### String infrastructure -/

/-- The character list of an appended string is the appended character lists. -/
theorem sdata_append (a b : String) : (a ++ b).data = a.data ++ b.data := by
  cases a; cases b; rfl

/-- Strings with equal character data are equal. -/
theorem sext {a b : String} (h : a.data = b.data) : a = b := by
  cases a; cases b; exact congrArg String.mk h

/-- String append is associative. -/
theorem sapp_assoc (a b c : String) : a ++ b ++ c = a ++ (b ++ c) := by
  apply sext; simp [sdata_append]

/-- Splitting a literal prefix off a string append. -/
theorem append_split {a b c : String} (h : a ++ b = c) (x : String) :
    c ++ x = a ++ (b ++ x) := by
  rw [← h, sapp_assoc]

/- ### Byte marshaller -/

theorem hexDigit_upperHex {n : Nat} (h : n < 16) : isUpperHexDigit (hexDigit n) := by
  revert h
  show n < 16 → isUpperHexDigit (hexDigit n)
  revert n
  decide

theorem hexByte_length (b : Nat) : (hexByte b).length = 2 := rfl

theorem hexByte_upperHex {b : Nat} (h : b < 256) :
    ∀ c ∈ (hexByte b).data, isUpperHexDigit c := by
  intro c hc
  have h1 : b / 16 < 16 := Nat.div_lt_of_lt_mul (by omega)
  have h2 : b % 16 < 16 := Nat.mod_lt _ (by omega)
  have : c = hexDigit (b / 16) ∨ c = hexDigit (b % 16) := by
    simpa [hexByte, String.data] using hc
  rcases this with h | h <;> subst h
  · exact hexDigit_upperHex h1
  · exact hexDigit_upperHex h2

theorem marshall_foldl (bytes : List Nat) :
    ∀ acc : String,
      bytes.foldl (fun acc b => acc ++ byteGroup b) acc =
        acc ++ concatList (bytes.map byteGroup) := by
  induction bytes with
  | nil => intro acc; apply sext; simp [concatList, sdata_append]
  | cons b rest ih =>
    intro acc
    simp only [List.foldl_cons, List.map_cons, concatList, ih, sapp_assoc]

/-- `marshall_value` is the bracket-enclosed concatenation of the byte groups. -/
theorem marshall_value_eq (bytes : List Nat) :
    marshall_value bytes = "&[" ++ concatList (bytes.map byteGroup) ++ "]" := by
  rw [marshall_value, marshall_foldl]

/-- C1: for a Copy value whose in-memory representation is the byte list
`bytes` of size `n` (each byte below 256), `marshall_value` produces the
literal `&[` ++ groups ++ `]` containing exactly `n` groups, where the `i`-th
group is the two-digit uppercase hexadecimal rendering of the `i`-th byte in
address order. -/
theorem marshall_value_groups (bytes : List Nat) (hb : ∀ b ∈ bytes, b < 256) :
    marshall_value bytes = "&[" ++ concatList (bytes.map byteGroup) ++ "]"
    ∧ (bytes.map byteGroup).length = bytes.length
    ∧ ∀ i : Fin bytes.length,
        (bytes.map byteGroup).get (Fin.cast (by simp) i) =
          "0x" ++ hexByte (bytes.get i) ++ ", "
        ∧ (hexByte (bytes.get i)).length = 2
        ∧ ∀ c ∈ (hexByte (bytes.get i)).data, isUpperHexDigit c := by
  refine ⟨marshall_value_eq bytes, by simp, ?_⟩
  intro i
  refine ⟨?_, hexByte_length _, hexByte_upperHex (hb _ (bytes.get_mem i.1 i.2))⟩
  simp [byteGroup]

/-- Concrete instantiation of `marshall_value_groups` at the bytes of the
spec's `0x08080808` example. -/
theorem marshall_value_groups_witness :
    marshall_value [8, 8, 8, 8] =
      "&[" ++ concatList ([8, 8, 8, 8].map byteGroup) ++ "]" :=
  (marshall_value_groups [8, 8, 8, 8] (by decide)).1

/- ### Accessor generation -/

theorem create_constant_func_marshalled (fname typename : String) (bytes : List Nat) :
    create_constant_func fname typename bytes =
      "#[inline]\nfn " ++ fname ++ "() -> &\x27static " ++ typename
        ++ " \x7b\n    const BUF: &[u8] = "
        ++ ("&[" ++ concatList (bytes.map byteGroup) ++ "]")
        ++ ";\n    unsafe \x7b &*(BUF.as_ptr() as *const " ++ typename ++ ") \x7d\n\x7d\n" := by
  unfold create_constant_func
  rw [marshall_value_eq]

theorem create_constant_func_inline_first (fname typename : String) (bytes : List Nat) :
    create_constant_func fname typename bytes =
      "#[inline]\n"
        ++ ("fn " ++ fname ++ "() -> &\x27static " ++ typename
            ++ " \x7b\n    const BUF: &[u8] = " ++ marshall_value bytes
            ++ ";\n    unsafe \x7b &*(BUF.as_ptr() as *const " ++ typename
            ++ ") \x7d\n\x7d\n") := by
  unfold create_constant_func
  simp only [sapp_assoc]
  exact append_split (by decide) _

/-- C2: the generated artifact is the single `#[inline]`-marked zero-argument
function returning a static-lifetime reference to the declared type; its body
binds the byte-sequence literal to a local constant (each pair introduced by a
lowercase `0x` and followed by the separator `, `) and returns the dereferenced
reinterpretation of the sequence's base address as a pointer to the declared
type. -/
theorem create_constant_func_spec (fname typename : String) (bytes : List Nat) :
    create_constant_func fname typename bytes =
      "#[inline]\nfn " ++ fname ++ "() -> &\x27static " ++ typename
        ++ " \x7b\n    const BUF: &[u8] = "
        ++ ("&[" ++ concatList (bytes.map byteGroup) ++ "]")
        ++ ";\n    unsafe \x7b &*(BUF.as_ptr() as *const " ++ typename ++ ") \x7d\n\x7d\n"
    ∧ (∃ rest, create_constant_func fname typename bytes = "#[inline]\n" ++ rest)
    ∧ ∀ b ∈ bytes, ∃ t, byteGroup b = "0x" ++ t ∧ t = hexByte b ++ ", " := by
  refine ⟨create_constant_func_marshalled fname typename bytes,
    ⟨_, create_constant_func_inline_first fname typename bytes⟩, ?_⟩
  intro b _
  exact ⟨hexByte b ++ ", ", (sapp_assoc _ _ _), rfl⟩

/- ### Registry -/

theorem hm_insert_insert_same (k v1 v2 : String) (l : List (String × String)) :
    hm_insert k v2 (hm_insert k v1 l) = hm_insert k v2 l := by
  induction l with
  | nil => simp [hm_insert]
  | cons e rest ih =>
    obtain ⟨k2, w⟩ := e
    by_cases h : k2 = k <;> simp [hm_insert, h, ih]

theorem hm_lookup_insert_self (k v : String) (l : List (String × String)) :
    hm_lookup k (hm_insert k v l) = some v := by
  induction l with
  | nil => simp [hm_insert, hm_lookup]
  | cons e rest ih =>
    obtain ⟨k2, w⟩ := e
    by_cases h : k2 = k <;> simp [hm_insert, hm_lookup, h, ih]

theorem hm_lookup_insert_other {g k : String} (hg : g ≠ k) (v : String)
    (l : List (String × String)) :
    hm_lookup g (hm_insert k v l) = hm_lookup g l := by
  have hk : ¬ k = g := fun h => hg h.symm
  induction l with
  | nil => simp [hm_insert, hm_lookup, hk]
  | cons e rest ih =>
    obtain ⟨k2, w⟩ := e
    by_cases h : k2 = k
    · subst h; simp [hm_insert, hm_lookup, hk]
    · simp [hm_insert, hm_lookup, h, ih]

/-- C6: registering twice under one name raises no error (`add_const` is a
total function) and leaves exactly the state of a single registration of the
second value: the name maps to the second value's generated text and every
other name is untouched. -/
theorem add_const_overwrites (reg : List (String × String)) (f t1 t2 : String)
    (v1 v2 : List Nat) :
    add_const (add_const reg f t1 v1) f t2 v2 = add_const reg f t2 v2
    ∧ hm_lookup f (add_const (add_const reg f t1 v1) f t2 v2) =
        some (create_constant_func f t2 v2)
    ∧ ∀ g, g ≠ f → hm_lookup g (add_const (add_const reg f t1 v1) f t2 v2) =
        hm_lookup g reg := by
  refine ⟨hm_insert_insert_same f _ _ reg, ?_, ?_⟩
  · rw [add_const, hm_lookup_insert_self]
  · intro g hg
    rw [add_const, hm_lookup_insert_other hg, add_const, hm_lookup_insert_other hg]

/-- Concrete instantiation of `add_const_overwrites`: after two registrations
under one name, the lookup yields the second value's generated text. -/
theorem add_const_overwrites_witness :
    hm_lookup "a" (add_const (add_const [] "a" "u8" [1]) "a" "u16" [2, 3]) =
      some (create_constant_func "a" "u16" [2, 3]) :=
  (add_const_overwrites [] "a" "u8" "u16" [1] [2, 3]).2.1

/-- C9: a zero-sized type has the empty byte list as its representation; the
marshaller reads none of its bytes and returns exactly the literal `&[]`, and
`add_const` on such a value succeeds exactly like any other registration. -/
theorem marshall_value_zero_sized (reg : List (String × String)) (f t : String) :
    marshall_value [] = "&[]"
    ∧ hm_lookup f (add_const reg f t []) = some (create_constant_func f t []) := by
  refine ⟨by decide, ?_⟩
  rw [add_const, hm_lookup_insert_self]

/- ### The commit loop -/

/-- C8: committing an empty registry performs no file operation at all (the
event trace is empty) and returns `Ok(())`. -/
theorem write_code_empty (env : FsEnv) : write_code env [] = ([], Outcome.ok) :=
  rfl

/-- C4 counterexample: with the output location unavailable, committing an
empty registry succeeds instead of failing with the Configuration error —
the `OUT_DIR` check sits inside the per-entry loop, so it is never reached. -/
theorem write_code_missing_env_empty_ok :
    write_code envNoOut [] = ([], Outcome.ok)
    ∧ ∀ e : WriteError, (write_code envNoOut []).2 ≠ Outcome.err e := by
  exact ⟨rfl, fun e h => Outcome.noConfusion h⟩

/-- C4 amended: for every nonempty registry, committing with the output
location unavailable fails with the Configuration error (the
missing-`OUT_DIR` `io::Error`) and writes no files (the event trace is
empty). -/
theorem write_code_missing_env_fails (env : FsEnv) (hd : env.outDir = none)
    (f b : String) (rest : List (String × String)) :
    write_code env ((f, b) :: rest) = ([], Outcome.err WriteError.missingOutDir) := by
  simp [write_code, build_output_path, env_var, hd]

/-- Concrete instantiation of `write_code_missing_env_fails`. -/
theorem write_code_missing_env_fails_witness :
    write_code envNoOut [("a", "x")] = ([], Outcome.err WriteError.missingOutDir) :=
  write_code_missing_env_fails envNoOut rfl "a" "x" []

/-- C10: with the output directory available, each processed entry first gets
its `OUTPUT PATH` diagnostic (the debug-formatted path) written to stdout —
it is the first event of the run, before any file creation — and if the
stdout write fails the run panics via `unwrap` (an outcome distinct from
every returned error) instead of returning an `Err` to the caller. -/
theorem write_code_stdout_diagnostic (env : FsEnv) (d f b : String)
    (rest : List (String × String)) (hd : env.outDir = some d) :
    (env.stdoutOk = false → write_code env ((f, b) :: rest) = ([], Outcome.panicked))
    ∧ (env.stdoutOk = true →
        ∃ tl, (write_code env ((f, b) :: rest)).1 =
          Event.stdoutOut ("OUTPUT PATH " ++ rustDebug (cconst_macro_path d f)) :: tl)
    ∧ ∀ e : WriteError, Outcome.panicked ≠ Outcome.err e := by
  have hpath : build_output_path env.outDir f =
      Except.ok (cconst_macro_path d f) := by
    simp [build_output_path, env_var, hd, cconst_macro_path, sapp_assoc]
  refine ⟨?_, ?_, fun e h => Outcome.noConfusion h⟩
  · intro hs
    simp [write_code, hpath, hs]
  · intro hs
    by_cases hc : env.createOk (cconst_macro_path d f) = true
    · by_cases hw : env.writeOk (cconst_macro_path d f) = true
      · refine ⟨Event.created (cconst_macro_path d f) ::
          Event.wrote (cconst_macro_path d f) b :: (write_code env rest).1, ?_⟩
        simp [write_code, hpath, hs, hc, hw]
      · refine ⟨[Event.created (cconst_macro_path d f)], ?_⟩
        simp [write_code, hpath, hs, hc, hw]
    · refine ⟨[], ?_⟩
      simp [write_code, hpath, hs, hc]

/-- Concrete instantiation of `write_code_stdout_diagnostic`: a failing
stdout causes a panic outcome. -/
theorem write_code_stdout_diagnostic_witness :
    write_code ⟨some "/out", fun _ => true, fun _ => true, false⟩ [("a", "x")] =
      ([], Outcome.panicked) :=
  (write_code_stdout_diagnostic ⟨some "/out", fun _ => true, fun _ => true, false⟩
    "/out" "a" "x" [] rfl).1 rfl

/- ### Sequencing and abort-on-failure -/

theorem write_code_append_ok (env : FsEnv) (l2 : List (String × String)) :
    ∀ l1, (write_code env l1).2 = Outcome.ok →
      write_code env (l1 ++ l2) =
        ((write_code env l1).1 ++ (write_code env l2).1, (write_code env l2).2) := by
  intro l1
  induction l1 with
  | nil => intro _; simp [write_code]
  | cons e l1 ih =>
    obtain ⟨f, b⟩ := e
    intro h
    cases hp : build_output_path env.outDir f with
    | error ve => simp [write_code, hp] at h
    | ok path =>
      by_cases hs : env.stdoutOk = true
      · by_cases hc : env.createOk path = true
        · by_cases hw : env.writeOk path = true
          · have h1 : (write_code env l1).2 = Outcome.ok := by
              simpa [write_code, hp, hs, hc, hw] using h
            simp [write_code, hp, hs, hc, hw, ih h1]
          · simp [write_code, hp, hs, hc, hw] at h
        · simp [write_code, hp, hs, hc] at h
      · simp [write_code, hp, hs] at h

/-- C5: if, with the output directory available, file creation or the file
write fails for some entry, the whole run returns that I/O error at once: the
entries after the failing one contribute nothing (they do not appear in the
result), and the events of the successfully processed prefix are kept as is —
no rollback. -/
theorem write_code_aborts_on_failure (env : FsEnv) (d : String)
    (l1 l2 : List (String × String)) (f b : String)
    (hd : env.outDir = some d) (hs : env.stdoutOk = true)
    (h1 : (write_code env l1).2 = Outcome.ok) :
    (env.createOk (cconst_macro_path d f) = false →
      write_code env (l1 ++ (f, b) :: l2) =
        ((write_code env l1).1 ++
          [Event.stdoutOut ("OUTPUT PATH " ++ rustDebug (cconst_macro_path d f))],
         Outcome.err (WriteError.createDenied (cconst_macro_path d f))))
    ∧ (env.createOk (cconst_macro_path d f) = true →
        env.writeOk (cconst_macro_path d f) = false →
      write_code env (l1 ++ (f, b) :: l2) =
        ((write_code env l1).1 ++
          [Event.stdoutOut ("OUTPUT PATH " ++ rustDebug (cconst_macro_path d f)),
           Event.created (cconst_macro_path d f)],
         Outcome.err (WriteError.writeDenied (cconst_macro_path d f)))) := by
  have hpath : build_output_path env.outDir f =
      Except.ok (cconst_macro_path d f) := by
    simp [build_output_path, env_var, hd, cconst_macro_path]
  constructor
  · intro hc
    rw [write_code_append_ok env ((f, b) :: l2) l1 h1]
    simp [write_code, hpath, hs, hc]
  · intro hc hw
    rw [write_code_append_ok env ((f, b) :: l2) l1 h1]
    simp [write_code, hpath, hs, hc, hw]

/-- Concrete instantiation of `write_code_aborts_on_failure`: with creation
denied for the middle entry, the run keeps the first entry's events, reports
the creation error, and never touches the last entry. -/
theorem write_code_aborts_on_failure_witness :
    write_code envDenyG ([("a", "x")] ++ ("g", "y") :: [("c", "z")]) =
      ((write_code envDenyG [("a", "x")]).1 ++
        [Event.stdoutOut ("OUTPUT PATH " ++ rustDebug (cconst_macro_path "/out" "g"))],
       Outcome.err (WriteError.createDenied (cconst_macro_path "/out" "g"))) :=
  (write_code_aborts_on_failure envDenyG "/out" [("a", "x")] [("c", "z")] "g" "y"
    rfl rfl (by decide)).1 (by decide)

/- ### Successful runs and their file-system effect -/

theorem write_code_success (env : FsEnv) (d : String) (hd : env.outDir = some d)
    (hs : env.stdoutOk = true) :
    ∀ entries, (∀ e ∈ entries, entryOk env d e) →
      write_code env entries = (entries.flatMap (entryEvents d), Outcome.ok) := by
  intro entries
  induction entries with
  | nil => intro _; rfl
  | cons e rest ih =>
    intro hok
    obtain ⟨f, b⟩ := e
    have hpath : build_output_path env.outDir f =
        Except.ok (cconst_macro_path d f) := by
      simp [build_output_path, env_var, hd, cconst_macro_path]
    obtain ⟨hc, hw⟩ := hok (f, b) (List.mem_cons_self _ _)
    simp [write_code, hpath, hs, hc, hw, entryEvents,
      ih (fun x hx => hok x (List.mem_cons_of_mem _ hx))]

theorem applyEvents_append (fs : String → Option String) (l1 l2 : List Event) :
    applyEvents fs (l1 ++ l2) = applyEvents (applyEvents fs l1) l2 := by
  simp [applyEvents, List.foldl_append]

theorem applyEvents_entry (fs : String → Option String) (d : String)
    (e : String × String) :
    applyEvents fs (entryEvents d e) =
      fun q => if q = cconst_macro_path d e.1 then some e.2 else fs q := by
  funext q
  by_cases h : q = cconst_macro_path d e.1 <;>
    simp [applyEvents, applyEvent, entryEvents, h]

theorem applyEvents_bind_untouched (d p : String) :
    ∀ (entries : List (String × String)) (fs : String → Option String),
      (∀ e ∈ entries, cconst_macro_path d e.1 ≠ p) →
      applyEvents fs (entries.flatMap (entryEvents d)) p = fs p := by
  intro entries
  induction entries with
  | nil => intro fs _; rfl
  | cons e rest ih =>
    intro fs hne
    have hp : ¬ p = cconst_macro_path d e.1 :=
      fun h => hne e (List.mem_cons_self _ _) h.symm
    rw [List.flatMap_cons, applyEvents_append,
      ih _ (fun x hx => hne x (List.mem_cons_of_mem _ hx)), applyEvents_entry]
    simp [hp]

theorem cconst_macro_path_inj (d : String) {f1 f2 : String}
    (h : cconst_macro_path d f1 = cconst_macro_path d f2) : f1 = f2 := by
  apply sext
  have hdata := congrArg String.data h
  simp only [cconst_macro_path, sdata_append, List.append_assoc] at hdata
  exact List.append_cancel_right (List.append_cancel_left (List.append_cancel_left hdata))

theorem nodup_keys_unique {l : List (String × String)}
    (hnd : (l.map Prod.fst).Nodup) {f b1 b2 : String}
    (h1 : (f, b1) ∈ l) (h2 : (f, b2) ∈ l) : b1 = b2 := by
  induction l with
  | nil => cases h1
  | cons e rest ih =>
    obtain ⟨hhead, htail⟩ := List.nodup_cons.mp hnd
    rcases List.mem_cons.mp h1 with e1 | m1 <;> rcases List.mem_cons.mp h2 with e2 | m2
    · rw [← e1] at e2; exact (Prod.mk.injEq _ _ _ _).mp e2.symm |>.2
    · exact absurd (List.mem_map_of_mem Prod.fst m2)
        (by rw [← e1] at hhead; exact hhead)
    · exact absurd (List.mem_map_of_mem Prod.fst m1)
        (by rw [← e2] at hhead; exact hhead)
    · exact ih htail m1 m2

theorem applyEvents_bind_lookup (d f b : String) :
    ∀ (entries : List (String × String)) (fs : String → Option String),
      (entries.map Prod.fst).Nodup → (f, b) ∈ entries →
      applyEvents fs (entries.flatMap (entryEvents d)) (cconst_macro_path d f) = some b := by
  intro entries
  induction entries with
  | nil => intro fs _ hm; cases hm
  | cons e rest ih =>
    intro fs hnd hm
    obtain ⟨g, c⟩ := e
    obtain ⟨hhead, htail⟩ := List.nodup_cons.mp hnd
    rw [List.flatMap_cons, applyEvents_append]
    rcases List.mem_cons.mp hm with he | hm2
    · obtain ⟨hf, hb⟩ := Prod.mk.injEq f b g c |>.mp he
      subst hf; subst hb
      rw [applyEvents_bind_untouched d (cconst_macro_path d f) rest _ ?_]
      · rw [applyEvents_entry]; simp
      · intro x hx hpx
        have hx1 : x.1 = f := cconst_macro_path_inj d hpx
        have hmem2 : x.1 ∈ List.map Prod.fst rest := List.mem_map_of_mem Prod.fst hx
        rw [hx1] at hmem2
        exact hhead hmem2
    · exact ih _ htail hm2

/-- C3: during a successful commit with the output directory available, every
registered entry is written verbatim to exactly the path
`<out-dir>/cconst-<name>.rs`: `build_output_path` yields the same path the
`cconst!` macro computes, the trace holds the corresponding write event, and
replaying the trace leaves that path holding exactly the entry's generated
text. -/
theorem write_code_path_formula (env : FsEnv) (d : String)
    (entries : List (String × String)) (f b : String)
    (hd : env.outDir = some d) (hs : env.stdoutOk = true)
    (hok : ∀ e ∈ entries, entryOk env d e)
    (hnd : (entries.map Prod.fst).Nodup)
    (hm : (f, b) ∈ entries) :
    build_output_path env.outDir f = Except.ok (cconst_macro_path d f)
    ∧ Event.wrote (cconst_macro_path d f) b ∈ (write_code env entries).1
    ∧ applyEvents emptyFs (write_code env entries).1 (cconst_macro_path d f) = some b := by
  have hpath : build_output_path env.outDir f =
      Except.ok (cconst_macro_path d f) := by
    simp [build_output_path, env_var, hd, cconst_macro_path]
  have hrun := write_code_success env d hd hs entries hok
  refine ⟨hpath, ?_, ?_⟩
  · rw [hrun]
    exact List.mem_flatMap.mpr ⟨(f, b), hm, by simp [entryEvents]⟩
  · rw [hrun]
    exact applyEvents_bind_lookup d f b entries emptyFs hnd hm

/-- Concrete instantiation of `write_code_path_formula`: after a successful
run, the file at the macro-computed path holds the entry's text. -/
theorem write_code_path_formula_witness :
    applyEvents emptyFs (write_code envAll [("a", "x")]).1
      (cconst_macro_path "/out" "a") = some "x" :=
  (write_code_path_formula envAll "/out" [("a", "x")] "a" "x" rfl rfl
    (fun _ _ => ⟨rfl, rfl⟩) (by decide) (by decide)).2.2

/-- C7: the file-system state left by a successful commit does not depend on
the iteration order of the registry: replaying the traces of two permuted
entry lists (with the registry's names unique) yields the same state at every
path; distinct names always map to distinct output files; and each file holds
exactly its own entry's accessor text. -/
theorem write_code_order_independent (env : FsEnv) (d : String)
    (l1 l2 : List (String × String))
    (hd : env.outDir = some d) (hs : env.stdoutOk = true)
    (hok : ∀ e ∈ l1, entryOk env d e)
    (hperm : l1.Perm l2)
    (hnd : (l1.map Prod.fst).Nodup) :
    (∀ p, applyEvents emptyFs (write_code env l1).1 p =
        applyEvents emptyFs (write_code env l2).1 p)
    ∧ (∀ f1 f2 : String, f1 ≠ f2 → cconst_macro_path d f1 ≠ cconst_macro_path d f2)
    ∧ (∀ f b, (f, b) ∈ l1 →
        applyEvents emptyFs (write_code env l1).1 (cconst_macro_path d f) = some b) := by
  have hok2 : ∀ e ∈ l2, entryOk env d e := fun e he => hok e (hperm.mem_iff.mpr he)
  have hnd2 : (l2.map Prod.fst).Nodup := ((hperm.map Prod.fst).nodup_iff).mp hnd
  have hrun1 := write_code_success env d hd hs l1 hok
  have hrun2 := write_code_success env d hd hs l2 hok2
  refine ⟨?_, fun f1 f2 hne h => hne (cconst_macro_path_inj d h), ?_⟩
  · intro p
    rw [hrun1, hrun2]
    by_cases hex : ∃ fb : String × String, fb ∈ l1 ∧ cconst_macro_path d fb.1 = p
    · obtain ⟨⟨f, b⟩, hmem, hp⟩ := hex
      subst hp
      rw [applyEvents_bind_lookup d f b l1 emptyFs hnd hmem,
        applyEvents_bind_lookup d f b l2 emptyFs hnd2 (hperm.mem_iff.mp hmem)]
    · push_neg at hex
      rw [applyEvents_bind_untouched d p l1 emptyFs (fun e he => hex e he),
        applyEvents_bind_untouched d p l2 emptyFs
          (fun e he => hex e (hperm.mem_iff.mpr he))]
  · intro f b hm
    rw [hrun1]
    exact applyEvents_bind_lookup d f b l1 emptyFs hnd hm

/-- Concrete instantiation of `write_code_order_independent`: committing two
entries in the reversed order leaves the same contents at the path of the
second entry. -/
theorem write_code_order_independent_witness :
    applyEvents emptyFs (write_code envAll [("a", "x"), ("b", "y")]).1
      (cconst_macro_path "/out" "b") = some "y" :=
  (write_code_order_independent envAll "/out" [("a", "x"), ("b", "y")]
    [("b", "y"), ("a", "x")] rfl rfl (fun _ _ => ⟨rfl, rfl⟩) (by decide)
    (by decide)).2.2 "b" "y" (by decide)

end Cconst
